import Mathlib

/-!
# Verification of the BJJ drill-through narrative engine

Shallow embedding of `src/bjj_domain.py` and `src/narrative_engine.py`.

The Python code stores its graph in a `networkx.DiGraph`, which is a *simple*
directed graph: `add_edge(u, v, data=t)` creates nodes `u` and `v` on demand and
stores the attribute dictionary under the pair `(u, v)`, overwriting the `data`
attribute when the pair already has an edge while keeping the successor's
position in the (insertion-ordered) adjacency dictionary.  Python dictionaries
are insertion-ordered with in-place update, so both the adjacency structure and
the `positions` dictionary are modelled as association lists with an
update-in-place-or-append operation.
-/

/-- `DecisionQuality` enum from `bjj_domain.py`. -/
inductive DecisionQuality where
  | excellent
  | good
  | poor
  | failure
deriving DecidableEq, Repr

/-- `DrillPrescription` dataclass from `bjj_domain.py`. -/
structure DrillPrescription where
  name : String
  description : String
  repetitions : Int
  focus_points : List String
deriving DecidableEq, Repr

/-- `Position` dataclass from `bjj_domain.py`. -/
structure Position where
  id : String
  name : String
  description : String
  advantages : List String
  common_mistakes : List String
  default_drills : List DrillPrescription := []
deriving DecidableEq, Repr

/-- `Transition` dataclass from `bjj_domain.py`.  The float `probability`
is modelled as a rational number; only comparisons and equalities of stored
values matter to the engine, which the rationals reproduce faithfully. -/
structure Transition where
  from_position : String
  to_position : String
  action : String
  opponent_reaction : String
  probability : ℚ
  decision_quality : DecisionQuality
  drill_prescription : Option DrillPrescription := none
deriving DecidableEq, Repr

/-! ## Association lists modelling Python's insertion-ordered dictionaries -/

/-- Dictionary lookup: first entry with the given key. -/
def alookup {α : Type} (k : String) : List (String × α) → Option α
  | [] => none
  | (k', v) :: rest => if k' = k then some v else alookup k rest

/-- Dictionary write `d[k] = v`: replace the value at the first entry with
key `k`, keeping its place, or append a new entry when `k` is absent. -/
def aupdate {α : Type} (l : List (String × α)) (k : String) (v : α) :
    List (String × α) :=
  match l with
  | [] => [(k, v)]
  | (k', v') :: rest =>
      if k' = k then (k, v) :: rest else (k', v') :: aupdate rest k v

/-- Modify the value at the first entry with key `k`, if present. -/
def amodify {α : Type} (l : List (String × α)) (k : String) (f : α → α) :
    List (String × α) :=
  match l with
  | [] => []
  | (k', v') :: rest =>
      if k' = k then (k', f v') :: rest else (k', v') :: amodify rest k f

/-! ## `networkx.DiGraph`, restricted to what the code uses -/

/-- The adjacency structure of `nx.DiGraph` as used by `BJJGraph`: nodes in
insertion order, each with its insertion-ordered successor dictionary whose
values are the `data` edge attribute (a `Transition`). -/
structure DiGraph where
  adj : List (String × List (String × Transition))
deriving DecidableEq, Repr

namespace DiGraph

/-- The empty graph `nx.DiGraph()`. -/
def empty : DiGraph := ⟨[]⟩

/-- `u in G`: node membership. -/
def containsNode (g : DiGraph) (u : String) : Bool :=
  (alookup u g.adj).isSome

/-- `G.add_node(u, ...)`: registers `u` with an empty successor dictionary
when new; an existing node's adjacency is untouched (only its attributes,
which the code never reads, are updated). -/
def addNode (g : DiGraph) (u : String) : DiGraph :=
  if g.containsNode u then g else ⟨g.adj ++ [(u, [])]⟩

/-- `G.add_edge(u, v, data=t)`: creates missing endpoints, then writes the
`data` attribute of edge `(u, v)`, overwriting any previous one. -/
def addEdge (g : DiGraph) (u v : String) (t : Transition) : DiGraph :=
  let g1 := g.addNode u
  let g2 := g1.addNode v
  ⟨amodify g2.adj u (fun inner => aupdate inner v t)⟩

/-- `[d['data'] for _, _, d in G.edges(u, data=True)]`: the `data` attributes
of the out-edges of `u` in adjacency order; iterating requires `u in G`. -/
def edgesFrom (g : DiGraph) (u : String) : List Transition :=
  if g.containsNode u then ((alookup u g.adj).getD []).map Prod.snd else []

end DiGraph

/-! ## `BJJGraph` from `bjj_domain.py` -/

/-- `BJJGraph`: the networkx graph plus the `positions` dictionary and the
global `transitions` list. -/
structure BJJGraph where
  graph : DiGraph
  positions : List (String × Position)
  transitions : List Transition
deriving DecidableEq, Repr

namespace BJJGraph

/-- `BJJGraph.__init__`. -/
def empty : BJJGraph := ⟨DiGraph.empty, [], []⟩

/-- `BJJGraph.add_position`. -/
def add_position (g : BJJGraph) (p : Position) : BJJGraph :=
  { g with
    positions := aupdate g.positions p.id p
    graph := g.graph.addNode p.id }

/-- `BJJGraph.add_transition`. -/
def add_transition (g : BJJGraph) (t : Transition) : BJJGraph :=
  { g with
    transitions := g.transitions ++ [t]
    graph := g.graph.addEdge t.from_position t.to_position t }

/-- `BJJGraph.get_position`. -/
def get_position (g : BJJGraph) (position_id : String) : Option Position :=
  alookup position_id g.positions

/-- `BJJGraph.get_transitions_from`. -/
def get_transitions_from (g : BJJGraph) (position_id : String) :
    List Transition :=
  g.graph.edgesFrom position_id

/-- `BJJGraph.get_drill_for_transition`. -/
def get_drill_for_transition (_g : BJJGraph) (t : Transition) :
    Option DrillPrescription :=
  t.drill_prescription

/-- `BJJGraph.get_position_drills`. -/
def get_position_drills (g : BJJGraph) (position_id : String) :
    List DrillPrescription :=
  match g.get_position position_id with
  | some p => p.default_drills
  | none => []

end BJJGraph

/-! ## `NarrativeSession` and `NarrativeEngine` from `narrative_engine.py` -/

/-- `NarrativeSession` state. -/
structure NarrativeSession where
  graph : BJJGraph
  current_position : String
  history : List (String × String)
  drills_earned : List DrillPrescription
deriving DecidableEq, Repr

namespace NarrativeSession

/-- `NarrativeSession.__init__(graph, starting_position)`. -/
def init (graph : BJJGraph) (starting_position : String) : NarrativeSession :=
  ⟨graph, starting_position, [], []⟩

/-- `NarrativeSession.get_current_position`. -/
def get_current_position (s : NarrativeSession) : Option Position :=
  s.graph.get_position s.current_position

/-- Stable insertion step for Python's `sorted(..., key=lambda t:
t.probability, reverse=True)`: the incoming element goes before the first
element whose probability does not exceed it. -/
def insertProbDesc (t : Transition) : List Transition → List Transition
  | [] => [t]
  | u :: us =>
      if u.probability ≤ t.probability then t :: u :: us
      else u :: insertProbDesc t us

/-- Python's `sorted(l, key=lambda t: t.probability, reverse=True)`: the
stable descending sort by probability (any stable sort is extensionally the
same function). -/
def sortByProbDesc : List Transition → List Transition
  | [] => []
  | t :: ts => insertProbDesc t (sortByProbDesc ts)

/-- `NarrativeSession.get_available_actions`. -/
def get_available_actions (s : NarrativeSession) : List Transition :=
  sortByProbDesc (s.graph.get_transitions_from s.current_position)

/-- `NarrativeSession.take_action`: returns the updated session state
together with the returned pair `(new_position, drill)`; both components of
the pair may be `none` (Python returns `None` there). -/
def take_action (s : NarrativeSession) (t : Transition) :
    NarrativeSession × (Option Position × Option DrillPrescription) :=
  let history := s.history ++ [(s.current_position, t.action)]
  let drill := s.graph.get_drill_for_transition t
  let drills_earned :=
    match drill with
    | some d => s.drills_earned ++ [d]
    | none => s.drills_earned
  let current := t.to_position
  let s' : NarrativeSession :=
    { s with
      history := history
      drills_earned := drills_earned
      current_position := current }
  (s', (s'.graph.get_position current, drill))

/-- The dictionary returned by `NarrativeSession.get_session_summary`,
as an explicit record. -/
structure Summary where
  positions_visited : Nat
  actions_taken : List String
  total_drills : Nat
  drills : List DrillPrescription
deriving DecidableEq, Repr

/-- `NarrativeSession.get_session_summary`. -/
def get_session_summary (s : NarrativeSession) : Summary :=
  { positions_visited := s.history.length + 1
    actions_taken := s.history.map Prod.snd
    total_drills := s.drills_earned.length
    drills := s.drills_earned }

end NarrativeSession

/-- `NarrativeEngine.start_session(starting_position)`. -/
def start_session (graph : BJJGraph) (starting_position : String) :
    NarrativeSession :=
  NarrativeSession.init graph starting_position

/-- The default value of `start_session`'s `starting_position` parameter. -/
def default_starting_position : String := "closed_guard"

/-- `NarrativeEngine.start_session()` with the parameter defaulted. -/
def start_session_default (graph : BJJGraph) : NarrativeSession :=
  start_session graph default_starting_position

/-! ## Graph construction histories

The claims about `GetTransitionsFrom` quantify over graphs produced by any
sequence of `add_position` / `add_transition` calls on a fresh graph (the only
mutators the code exposes). -/

/-- One call to a `BJJGraph` mutator. -/
inductive GraphOp where
  | addPos (p : Position)
  | addTrans (t : Transition)
deriving DecidableEq, Repr

/-- Apply one mutator call. -/
def applyOp (g : BJJGraph) : GraphOp → BJJGraph
  | GraphOp.addPos p => g.add_position p
  | GraphOp.addTrans t => g.add_transition t

/-- The graph built by a sequence of mutator calls on a fresh `BJJGraph`. -/
def buildGraph (ops : List GraphOp) : BJJGraph :=
  ops.foldl applyOp BJJGraph.empty

/-- Run a session forward through a list of chosen transitions
(repeated `take_action`, keeping the state). -/
def runActions (s : NarrativeSession) (acts : List Transition) :
    NarrativeSession :=
  acts.foldl (fun s t => (s.take_action t).1) s

/-! ## Association-list lemmas -/

theorem alookup_append_some {α : Type} {k : String} {l1 l2 : List (String × α)}
    {v : α} (h : alookup k l1 = some v) : alookup k (l1 ++ l2) = some v := by
  induction l1 with
  | nil => simp [alookup] at h
  | cons e rest ih =>
    obtain ⟨k', v'⟩ := e
    simp only [alookup, List.cons_append] at h ⊢
    split at h
    · simp [*]
    · simp only [*, if_false]
      exact ih h

theorem alookup_append_none {α : Type} {k : String} {l1 l2 : List (String × α)}
    (h : alookup k l1 = none) : alookup k (l1 ++ l2) = alookup k l2 := by
  induction l1 with
  | nil => simp
  | cons e rest ih =>
    obtain ⟨k', v'⟩ := e
    simp only [alookup, List.cons_append] at h ⊢
    split at h
    · exact absurd h (by simp)
    · simp only [*, if_false]
      exact ih h

theorem alookup_aupdate_self {α : Type} (k : String) (v : α)
    (l : List (String × α)) : alookup k (aupdate l k v) = some v := by
  induction l with
  | nil => simp [alookup, aupdate]
  | cons e rest ih =>
    obtain ⟨k', v'⟩ := e
    by_cases h : k' = k <;> simp [alookup, aupdate, h, ih]

theorem alookup_aupdate_ne {α : Type} {k k' : String} (hne : k' ≠ k) (v : α)
    (l : List (String × α)) : alookup k (aupdate l k' v) = alookup k l := by
  induction l with
  | nil => simp [alookup, aupdate, hne]
  | cons e rest ih =>
    obtain ⟨k₀, v₀⟩ := e
    by_cases h : k₀ = k'
    · subst h
      simp [alookup, aupdate, hne]
    · simp [alookup, aupdate, h, ih]

theorem alookup_amodify_self {α : Type} (k : String) (f : α → α)
    (l : List (String × α)) :
    alookup k (amodify l k f) = (alookup k l).map f := by
  induction l with
  | nil => simp [alookup, amodify]
  | cons e rest ih =>
    obtain ⟨k', v'⟩ := e
    by_cases h : k' = k <;> simp [alookup, amodify, h, ih]

theorem alookup_amodify_ne {α : Type} {k k' : String} (hne : k' ≠ k)
    (f : α → α) (l : List (String × α)) :
    alookup k (amodify l k' f) = alookup k l := by
  induction l with
  | nil => simp [amodify]
  | cons e rest ih =>
    obtain ⟨k₀, v₀⟩ := e
    by_cases h : k₀ = k'
    · subst h
      simp [alookup, amodify, hne]
    · simp [alookup, amodify, h, ih]

theorem alookup_eq_none_of_forall {α : Type} {k : String}
    {l : List (String × α)} (h : ∀ e ∈ l, e.1 ≠ k) : alookup k l = none := by
  induction l with
  | nil => rfl
  | cons e rest ih =>
    obtain ⟨k', v'⟩ := e
    have h1 : k' ≠ k := h (k', v') (by simp)
    simp only [alookup, h1, if_false]
    exact ih fun e he => h e (by simp [he])

theorem alookup_isSome_iff {α : Type} (k : String) (l : List (String × α)) :
    (alookup k l).isSome ↔ k ∈ l.map Prod.fst := by
  induction l with
  | nil => simp [alookup]
  | cons e rest ih =>
    obtain ⟨k', v'⟩ := e
    by_cases h : k' = k
    · subst h
      simp [alookup]
    · simp only [alookup, h, if_false, List.map_cons, List.mem_cons]
      rw [ih]
      constructor
      · exact fun hm => Or.inr hm
      · rintro (hk | hm)
        · exact absurd hk.symm h
        · exact hm

theorem keys_aupdate {α : Type} (k : String) (v : α) (l : List (String × α)) :
    (aupdate l k v).map Prod.fst =
      if (alookup k l).isSome then l.map Prod.fst else l.map Prod.fst ++ [k] := by
  induction l with
  | nil => simp [aupdate, alookup]
  | cons e rest ih =>
    obtain ⟨k', v'⟩ := e
    by_cases h : k' = k
    · simp [aupdate, alookup, h]
    · simp only [aupdate, alookup, h, if_false, List.map_cons, ih]
      split <;> simp [h]

/-! ## Adjacency lemmas for the embedded `DiGraph` -/

/-- The successor dictionary the graph holds for `k` (empty when `k` is not
a node). -/
def adjOf (g : BJJGraph) (k : String) : List (String × Transition) :=
  (alookup k g.graph.adj).getD []

theorem edgesFrom_eq (g : DiGraph) (u : String) :
    g.edgesFrom u = ((alookup u g.adj).getD []).map Prod.snd := by
  unfold DiGraph.edgesFrom DiGraph.containsNode
  cases h : alookup u g.adj <;> simp [h]

theorem get_transitions_from_eq (g : BJJGraph) (k : String) :
    g.get_transitions_from k = (adjOf g k).map Prod.snd := by
  unfold BJJGraph.get_transitions_from adjOf
  exact edgesFrom_eq g.graph k

theorem alookup_addNode_getD (g : DiGraph) (u k : String) :
    (alookup k (g.addNode u).adj).getD [] = (alookup k g.adj).getD [] := by
  unfold DiGraph.addNode DiGraph.containsNode
  split
  · rfl
  · rename_i h
    cases hk : alookup k g.adj with
    | some v => simp [alookup_append_some hk]
    | none =>
      rw [alookup_append_none hk]
      by_cases huk : u = k <;> simp [alookup, huk]

theorem alookup_addNode_self (g : DiGraph) (u : String) :
    alookup u (g.addNode u).adj = some ((alookup u g.adj).getD []) := by
  unfold DiGraph.addNode DiGraph.containsNode
  split
  · rename_i h
    cases hk : alookup u g.adj with
    | some v => simp [hk]
    | none => simp [hk] at h
  · rename_i h
    cases hk : alookup u g.adj with
    | some v => simp [hk] at h
    | none => simp [alookup_append_none hk, alookup]

theorem alookup_addNode_isSome {g : DiGraph} {k : String} {x : List (String × Transition)}
    (h : alookup k g.adj = some x) (u : String) :
    alookup k (g.addNode u).adj = some x := by
  unfold DiGraph.addNode DiGraph.containsNode
  split
  · exact h
  · exact alookup_append_some h

theorem adjOf_add_position (g : BJJGraph) (p : Position) (k : String) :
    adjOf (g.add_position p) k = adjOf g k := by
  unfold adjOf BJJGraph.add_position
  exact alookup_addNode_getD g.graph p.id k

theorem adjOf_add_transition_self (g : BJJGraph) (t : Transition) :
    adjOf (g.add_transition t) t.from_position =
      aupdate (adjOf g t.from_position) t.to_position t := by
  unfold adjOf BJJGraph.add_transition DiGraph.addEdge
  simp only
  set u := t.from_position
  have h1 : alookup u (g.graph.addNode u).adj =
      some ((alookup u g.graph.adj).getD []) := alookup_addNode_self g.graph u
  have h2 : alookup u ((g.graph.addNode u).addNode t.to_position).adj =
      some ((alookup u g.graph.adj).getD []) :=
    alookup_addNode_isSome h1 t.to_position
  rw [alookup_amodify_self, h2]
  simp

theorem adjOf_add_transition_ne (g : BJJGraph) (t : Transition) {k : String}
    (h : t.from_position ≠ k) :
    adjOf (g.add_transition t) k = adjOf g k := by
  unfold adjOf BJJGraph.add_transition DiGraph.addEdge
  simp only
  rw [alookup_amodify_ne h]
  have e2 := alookup_addNode_getD (g.graph.addNode t.from_position) t.to_position k
  have e1 := alookup_addNode_getD g.graph t.from_position k
  rw [e2, e1]

/-! ## Refinement of `get_transitions_from` over construction histories

The graph keeps, for each source node, one slot per distinct destination, in
order of first insertion, holding the transition most recently written for
that (source, destination) pair.  `lastPerDest` states exactly that policy
directly over the list of mutator calls. -/

/-- Specification of the outgoing-edge store for source `k` after a history
of mutator calls, starting from accumulator `acc`: each `add_transition`
whose source is `k` writes its destination slot (in place when the
destination was already seen from `k`, appended otherwise). -/
def lastPerDest (k : String) (acc : List (String × Transition)) :
    List GraphOp → List (String × Transition)
  | [] => acc
  | GraphOp.addPos _ :: rest => lastPerDest k acc rest
  | GraphOp.addTrans t :: rest =>
      lastPerDest k
        (if t.from_position = k then aupdate acc t.to_position t else acc) rest

theorem adjOf_foldl (k : String) :
    ∀ (ops : List GraphOp) (g : BJJGraph),
      adjOf (ops.foldl applyOp g) k = lastPerDest k (adjOf g k) ops := by
  intro ops
  induction ops with
  | nil => intro g; rfl
  | cons op rest ih =>
    intro g
    rw [List.foldl_cons, ih (applyOp g op)]
    cases op with
    | addPos p =>
      rw [lastPerDest]
      rw [show applyOp g (GraphOp.addPos p) = g.add_position p from rfl,
        adjOf_add_position]
    | addTrans t =>
      rw [lastPerDest]
      rw [show applyOp g (GraphOp.addTrans t) = g.add_transition t from rfl]
      by_cases h : t.from_position = k
      · rw [if_pos h, ← h, adjOf_add_transition_self]
      · rw [if_neg h, adjOf_add_transition_ne g t h]

theorem get_transitions_from_buildGraph (ops : List GraphOp) (k : String) :
    (buildGraph ops).get_transitions_from k =
      (lastPerDest k [] ops).map Prod.snd := by
  rw [buildGraph, get_transitions_from_eq, adjOf_foldl k ops BJJGraph.empty]
  rfl

/-! ## Properties of the stable descending sort -/

namespace NarrativeSession

theorem mem_insertProbDesc {x t : Transition} :
    ∀ {l : List Transition}, x ∈ insertProbDesc t l ↔ x = t ∨ x ∈ l := by
  intro l
  induction l with
  | nil => simp [insertProbDesc]
  | cons u us ih =>
    rw [insertProbDesc]
    split
    · simp
    · simp only [List.mem_cons, ih]
      tauto

theorem sorted_insertProbDesc (t : Transition) :
    ∀ {l : List Transition},
      l.Sorted (fun a b => b.probability ≤ a.probability) →
      (insertProbDesc t l).Sorted (fun a b => b.probability ≤ a.probability) := by
  intro l
  induction l with
  | nil =>
    intro _
    simp [insertProbDesc]
  | cons u us ih =>
    intro h
    rw [List.sorted_cons] at h
    rw [insertProbDesc]
    split
    · rename_i hle
      rw [List.sorted_cons]
      refine ⟨?_, List.sorted_cons.mpr h⟩
      intro b hb
      rcases List.mem_cons.mp hb with hb | hb
      · exact hb ▸ hle
      · exact le_trans (h.1 b hb) hle
    · rename_i hgt
      rw [List.sorted_cons]
      refine ⟨?_, ih h.2⟩
      intro b hb
      rcases mem_insertProbDesc.mp hb with hb | hb
      · exact hb ▸ le_of_not_le hgt
      · exact h.1 b hb

theorem sorted_sortByProbDesc :
    ∀ (l : List Transition),
      (sortByProbDesc l).Sorted (fun a b => b.probability ≤ a.probability) := by
  intro l
  induction l with
  | nil => simp [sortByProbDesc]
  | cons t ts ih => exact sorted_insertProbDesc t ih

theorem perm_insertProbDesc (t : Transition) :
    ∀ (l : List Transition), List.Perm (insertProbDesc t l) (t :: l) := by
  intro l
  induction l with
  | nil => rfl
  | cons u us ih =>
    rw [insertProbDesc]
    split
    · rfl
    · exact (ih.cons u).trans (List.Perm.swap t u us)

theorem perm_sortByProbDesc :
    ∀ (l : List Transition), List.Perm (sortByProbDesc l) l := by
  intro l
  induction l with
  | nil => rfl
  | cons t ts ih => exact (perm_insertProbDesc t (sortByProbDesc ts)).trans (ih.cons t)

theorem filter_insertProbDesc (p : ℚ) (t : Transition) :
    ∀ (l : List Transition),
      (insertProbDesc t l).filter (fun x => decide (x.probability = p)) =
        if t.probability = p
        then t :: l.filter (fun x => decide (x.probability = p))
        else l.filter (fun x => decide (x.probability = p)) := by
  intro l
  induction l with
  | nil =>
    by_cases htp : t.probability = p <;> simp [insertProbDesc, List.filter, htp]
  | cons u us ih =>
    rw [insertProbDesc]
    split
    · rw [List.filter_cons]
      split <;> rename_i hq
      · rw [if_pos (by simpa using hq)]
      · rw [if_neg (by simpa using hq)]
    · rename_i hgt
      rw [List.filter_cons, List.filter_cons, ih]
      by_cases htp : t.probability = p
      · have hup : ¬ u.probability = p := by
          intro hu
          exact hgt (le_of_eq (htp ▸ hu))
        simp [htp, hup]
      · simp [htp]

theorem filter_sortByProbDesc (p : ℚ) :
    ∀ (l : List Transition),
      (sortByProbDesc l).filter (fun x => decide (x.probability = p)) =
        l.filter (fun x => decide (x.probability = p)) := by
  intro l
  induction l with
  | nil => rfl
  | cons t ts ih =>
    rw [sortByProbDesc, filter_insertProbDesc, ih, List.filter_cons]
    by_cases htp : t.probability = p <;> simp [htp]

end NarrativeSession

/-! ## Session-step lemmas -/

theorem take_action_state (s : NarrativeSession) (t : Transition) :
    (s.take_action t).1 =
      { s with
        history := s.history ++ [(s.current_position, t.action)]
        drills_earned := s.drills_earned ++ t.drill_prescription.toList
        current_position := t.to_position } := by
  unfold NarrativeSession.take_action BJJGraph.get_drill_for_transition
  cases t.drill_prescription <;> simp

theorem take_action_result (s : NarrativeSession) (t : Transition) :
    (s.take_action t).2 =
      (s.graph.get_position t.to_position, t.drill_prescription) := rfl

theorem take_action_graph (s : NarrativeSession) (t : Transition) :
    (s.take_action t).1.graph = s.graph := rfl

theorem runActions_history_length :
    ∀ (acts : List Transition) (s : NarrativeSession),
      (runActions s acts).history.length = s.history.length + acts.length := by
  intro acts
  induction acts with
  | nil => intro s; rfl
  | cons t ts ih =>
    intro s
    rw [runActions, List.foldl_cons, ← runActions, ih, take_action_state]
    simp
    omega

theorem runActions_drills_invariant :
    ∀ (acts : List Transition) (s : NarrativeSession),
      s.drills_earned.length ≤ s.history.length →
      (runActions s acts).drills_earned.length ≤
        (runActions s acts).history.length := by
  intro acts
  induction acts with
  | nil => intro s h; exact h
  | cons t ts ih =>
    intro s h
    rw [runActions, List.foldl_cons, ← runActions]
    refine ih _ ?_
    rw [take_action_state]
    simp only [List.length_append]
    have : t.drill_prescription.toList.length ≤ 1 := by
      cases t.drill_prescription <;> simp
    simp only [List.length_singleton]
    omega

/-! ## Claim theorems (sessions) -/

/-- C3: `take_action` appends `(currentKey, transition.action)` to history,
appends the transition's drill (when present) to the rewards log, sets the
current key to `transition.to_position`, and returns the position resolved
from the new key together with the drill; it is a total function — absence
of position or drill is an optional result, not an error. -/
theorem claim_C3 (s : NarrativeSession) (t : Transition) :
    s.take_action t =
      ({ s with
          history := s.history ++ [(s.current_position, t.action)]
          drills_earned := s.drills_earned ++ t.drill_prescription.toList
          current_position := t.to_position },
        (s.graph.get_position t.to_position, t.drill_prescription)) := by
  rw [← take_action_state s t, ← take_action_result s t]

/-- C4: after `n` actions on a fresh session, the summary reports
`positions_visited = n + 1`, `actions_taken` = the action labels of the
history entries in order (length `n`), `total_drills` = the length of the
rewards log, and `drills` = the rewards log itself. -/
theorem claim_C4 (g : BJJGraph) (k : String) (acts : List Transition) :
    ((runActions (start_session g k) acts).get_session_summary.positions_visited
        = acts.length + 1)
    ∧ (runActions (start_session g k) acts).get_session_summary.actions_taken
        = (runActions (start_session g k) acts).history.map Prod.snd
    ∧ (runActions (start_session g k) acts).get_session_summary.actions_taken.length
        = acts.length
    ∧ (runActions (start_session g k) acts).get_session_summary.total_drills
        = (runActions (start_session g k) acts).drills_earned.length
    ∧ (runActions (start_session g k) acts).get_session_summary.drills
        = (runActions (start_session g k) acts).drills_earned := by
  have hlen := runActions_history_length acts (start_session g k)
  have h0 : (start_session g k).history.length = 0 := rfl
  refine ⟨?_, rfl, ?_, rfl, rfl⟩
  · show (runActions (start_session g k) acts).history.length + 1 = acts.length + 1
    rw [hlen, h0]
    omega
  · show ((runActions (start_session g k) acts).history.map Prod.snd).length
        = acts.length
    rw [List.length_map, hlen, h0]
    omega

/-- C9: in every session state reachable from a fresh session, the number of
drills earned never exceeds the number of history entries, so the summary's
`total_drills` is at most the length of `actions_taken`. -/
theorem claim_C9 (g : BJJGraph) (k : String) (acts : List Transition) :
    (runActions (start_session g k) acts).drills_earned.length ≤
      (runActions (start_session g k) acts).history.length
    ∧ (runActions (start_session g k) acts).get_session_summary.total_drills ≤
      (runActions (start_session g k) acts).get_session_summary.actions_taken.length := by
  have h := runActions_drills_invariant acts (start_session g k) (by simp [start_session, NarrativeSession.init])
  refine ⟨h, ?_⟩
  rw [NarrativeSession.get_session_summary]
  simpa using h

/-- C10: `take_action` leaves the graph it walks untouched — the graph
field of the session, with its position map, transition list and adjacency,
is identical before and after. -/
theorem claim_C10 (s : NarrativeSession) (t : Transition) :
    (s.take_action t).1.graph = s.graph
    ∧ (s.take_action t).1.graph.positions = s.graph.positions
    ∧ (s.take_action t).1.graph.transitions = s.graph.transitions
    ∧ (s.take_action t).1.graph.graph = s.graph.graph :=
  ⟨rfl, rfl, rfl, rfl⟩

/-! ## Further helper lemmas -/

theorem mem_map_snd_aupdate {α : Type} (k : String) (v : α) :
    ∀ (l : List (String × α)), v ∈ (aupdate l k v).map Prod.snd := by
  intro l
  induction l with
  | nil => simp [aupdate]
  | cons e rest ih =>
    obtain ⟨k', v'⟩ := e
    by_cases h : k' = k <;> simp [aupdate, h, ih]

theorem lastPerDest_eq_acc {k : String} :
    ∀ {ops : List GraphOp} (acc : List (String × Transition)),
      (∀ u : Transition, GraphOp.addTrans u ∈ ops → u.from_position ≠ k) →
      lastPerDest k acc ops = acc := by
  intro ops
  induction ops with
  | nil => intro acc _; rfl
  | cons op rest ih =>
    intro acc h
    cases op with
    | addPos p =>
      rw [lastPerDest]
      exact ih acc fun u hu => h u (by simp [hu])
    | addTrans t =>
      rw [lastPerDest, if_neg (h t (by simp))]
      exact ih acc fun u hu => h u (by simp [hu])

/-! ## Concrete fixtures used by counterexamples and witnesses -/

/-- Two distinct transitions sharing the (source, destination) pair
`("a", "b")`. -/
def tC1a : Transition :=
  ⟨"a", "b", "act1", "r1", 1, DecisionQuality.good, none⟩

def tC1b : Transition :=
  ⟨"a", "b", "act2", "r2", 1, DecisionQuality.good, none⟩

def gC1 : BJJGraph := (BJJGraph.empty.add_transition tC1a).add_transition tC1b

/-- Transitions `A(0.3), B(0.7), C(0.7)` (in this insertion order) out of
node `"n"`, with pairwise distinct destinations. -/
def tC2A : Transition :=
  ⟨"n", "x", "A", "r", 3/10, DecisionQuality.poor, none⟩

def tC2B : Transition :=
  ⟨"n", "y", "B", "r", 7/10, DecisionQuality.good, none⟩

def tC2C : Transition :=
  ⟨"n", "z", "C", "r", 7/10, DecisionQuality.good, none⟩

def gC2 : BJJGraph :=
  buildGraph
    [GraphOp.addTrans tC2A, GraphOp.addTrans tC2B, GraphOp.addTrans tC2C]

/-- Two positions with the same key `"k"` and different attributes. -/
def pC5a : Position := ⟨"k", "first", "d1", [], [], []⟩

def pC5b : Position := ⟨"k", "second", "d2", [], [], []⟩

def pC6 : Position := ⟨"x", "X", "d", [], [], []⟩

/-- A transition whose destination `"dangling_dest"` is never inserted as a
position. -/
def tC6 : Transition :=
  ⟨"x", "dangling_dest", "go", "r", 1/2, DecisionQuality.good, none⟩

def pC7 : Position := ⟨"mount", "Mount", "top", [], [], []⟩

def tC7 : Transition :=
  ⟨"mount", "mount", "hold", "r", 1/2, DecisionQuality.good, none⟩

def gC7 : BJJGraph := buildGraph [GraphOp.addPos pC7, GraphOp.addTrans tC7]

def pC8 : Position := ⟨"present", "P", "d", [], [], []⟩

def gC8 : BJJGraph := buildGraph [GraphOp.addPos pC8]

/-! ## Claim theorems (graph) -/

/-- C1 fails on the code: the graph is a simple digraph, so a second
transition with the same (source, destination) pair overwrites the first.
Here `tC1a` was added with source `"a"` but does not appear in
`get_transitions_from "a"`. -/
theorem claim_C1_counterexample :
    gC1.transitions = [tC1a, tC1b]
    ∧ tC1a.from_position = "a"
    ∧ gC1.get_transitions_from "a" = [tC1b]
    ∧ tC1a ∉ gC1.get_transitions_from "a" := by decide

/-- C1 (amended): `get_transitions_from key` returns one transition per
distinct destination ever added from `key`, in order of first insertion of
each destination, each slot holding the most recently added transition for
that (source, destination) pair; in particular, all transitions with
distinct destinations appear in insertion order, while same-pair duplicates
collapse to the last one added. -/
theorem claim_C1 (ops : List GraphOp) (k : String) :
    (buildGraph ops).get_transitions_from k =
      (lastPerDest k [] ops).map Prod.snd :=
  get_transitions_from_buildGraph ops k

/-- C2: `get_available_actions` returns the current key's transitions
stably sorted by probability descending: the result is sorted, is a
permutation of `get_transitions_from currentKey`, and for every probability
value the transitions carrying it keep their relative order (equal
filters); on insertion order `A(0.3), B(0.7), C(0.7)` it returns
`[B, C, A]`. -/
theorem claim_C2 :
    (∀ s : NarrativeSession,
      (s.get_available_actions).Sorted
        (fun a b => b.probability ≤ a.probability)
      ∧ List.Perm s.get_available_actions
          (s.graph.get_transitions_from s.current_position)
      ∧ ∀ p : ℚ,
          (s.get_available_actions).filter (fun x => decide (x.probability = p))
            = (s.graph.get_transitions_from s.current_position).filter
                (fun x => decide (x.probability = p)))
    ∧ (start_session gC2 "n").get_available_actions = [tC2B, tC2C, tC2A] := by
  constructor
  · intro s
    exact ⟨NarrativeSession.sorted_sortByProbDesc _,
      NarrativeSession.perm_sortByProbDesc _,
      fun p => NarrativeSession.filter_sortByProbDesc p _⟩
  · show NarrativeSession.sortByProbDesc (gC2.get_transitions_from "n")
        = [tC2B, tC2C, tC2A]
    have h1 : gC2.get_transitions_from "n" = [tC2A, tC2B, tC2C] := by
      simp [gC2, buildGraph, applyOp, BJJGraph.empty, DiGraph.empty,
        BJJGraph.add_transition, DiGraph.addEdge, DiGraph.addNode,
        DiGraph.containsNode, alookup, aupdate, amodify,
        BJJGraph.get_transitions_from, DiGraph.edgesFrom, tC2A, tC2B, tC2C]
    rw [h1]
    norm_num [NarrativeSession.sortByProbDesc, NarrativeSession.insertProbDesc,
      tC2A, tC2B, tC2C]

/-- C5: adding two positions with the same key leaves exactly one entry
under that key in the position dictionary, and the second write's
attributes are the ones visible; `add_position` is total. -/
theorem claim_C5 (g : BJJGraph) (p1 p2 : Position)
    (hnd : (g.positions.map Prod.fst).Nodup) (hid : p2.id = p1.id) :
    ((((g.add_position p1).add_position p2).positions.map Prod.fst).count p1.id
        = 1)
    ∧ ((g.add_position p1).add_position p2).get_position p1.id = some p2 := by
  constructor
  · show ((aupdate (aupdate g.positions p1.id p1) p2.id p2).map Prod.fst).count p1.id = 1
    rw [hid, keys_aupdate, alookup_aupdate_self]
    simp only [Option.isSome_some, if_true]
    rw [keys_aupdate]
    cases hs : alookup p1.id g.positions with
    | some q =>
      simp only [Option.isSome_some, if_true]
      refine List.count_eq_one_of_mem hnd ?_
      rw [← alookup_isSome_iff, hs]
      rfl
    | none =>
      simp only [Option.isSome_none, Bool.false_eq_true, if_false]
      rw [List.count_append]
      have hnm : p1.id ∉ g.positions.map Prod.fst := by
        rw [← alookup_isSome_iff, hs]
        simp
      rw [List.count_eq_zero.mpr hnm]
      simp
  · show alookup p1.id (aupdate (aupdate g.positions p1.id p1) p2.id p2) = some p2
    rw [hid, alookup_aupdate_self]

/-- Witness for C5 at a concrete input: two positions with key `"k"` added
to the empty graph. -/
theorem claim_C5_witness :
    (BJJGraph.empty.positions.map Prod.fst).Nodup
    ∧ pC5b.id = pC5a.id
    ∧ ((((BJJGraph.empty.add_position pC5a).add_position pC5b).positions.map
          Prod.fst).count pC5a.id = 1)
    ∧ ((BJJGraph.empty.add_position pC5a).add_position pC5b).get_position
        pC5a.id = some pC5b :=
  ⟨by simp [BJJGraph.empty], rfl,
    (claim_C5 BJJGraph.empty pC5a pC5b (by simp [BJJGraph.empty]) rfl).1,
    (claim_C5 BJJGraph.empty pC5a pC5b (by simp [BJJGraph.empty]) rfl).2⟩

/-- C6: a transition may be added even when its source or destination was
never inserted as a position, and it then appears in
`get_transitions_from` of its source; and `get_transitions_from` on a key
with no outgoing transitions (or absent entirely) returns the empty list
without failing. -/
theorem claim_C6 (ops : List GraphOp) (t : Transition) (k : String) :
    t ∈ ((buildGraph ops).add_transition t).get_transitions_from
        t.from_position
    ∧ ((∀ u : Transition, GraphOp.addTrans u ∈ ops → u.from_position ≠ k) →
        (buildGraph ops).get_transitions_from k = []) := by
  constructor
  · rw [get_transitions_from_eq, adjOf_add_transition_self]
    exact mem_map_snd_aupdate t.to_position t (adjOf (buildGraph ops) t.from_position)
  · intro h
    rw [get_transitions_from_buildGraph, lastPerDest_eq_acc [] h]
    rfl

/-- Witness for C6 at a concrete input: `tC6`'s destination
`"dangling_dest"` is never a position, yet the transition is listed from
`"x"`; and the key `"zzz"`, which has no outgoing transitions, yields `[]`. -/
theorem claim_C6_witness :
    tC6 ∈ ((buildGraph [GraphOp.addPos pC6]).add_transition
        tC6).get_transitions_from tC6.from_position
    ∧ (buildGraph [GraphOp.addPos pC6]).get_transitions_from "zzz" = [] :=
  ⟨(claim_C6 [GraphOp.addPos pC6] tC6 "zzz").1,
    (claim_C6 [GraphOp.addPos pC6] tC6 "zzz").2 (by
      intro u hu
      simp at hu)⟩

/-- C7: `start_session` is pure construction with no validation of the
start key (default `"closed_guard"`); on a start key absent from the
position set, `get_current_position` is `none`, and on a key absent from
the graph's adjacency, `get_available_actions` is empty — no error in
either case. -/
theorem claim_C7 (g : BJJGraph) (k : String) :
    start_session g k = ⟨g, k, [], []⟩
    ∧ start_session_default g = ⟨g, "closed_guard", [], []⟩
    ∧ ((∀ e ∈ g.positions, e.1 ≠ k) →
        (start_session g k).get_current_position = none)
    ∧ ((∀ e ∈ g.graph.adj, e.1 ≠ k) →
        (start_session g k).get_available_actions = []) := by
  refine ⟨rfl, rfl, ?_, ?_⟩
  · intro h
    exact alookup_eq_none_of_forall h
  · intro h
    show NarrativeSession.sortByProbDesc (g.get_transitions_from k) = []
    rw [get_transitions_from_eq]
    unfold adjOf
    rw [alookup_eq_none_of_forall h]
    rfl

/-- Witness for C7 at a concrete input: the graph `gC7` does not contain
the key `"nonexistent"`. -/
theorem claim_C7_witness :
    (start_session gC7 "nonexistent").get_current_position = none
    ∧ (start_session gC7 "nonexistent").get_available_actions = [] :=
  ⟨(claim_C7 gC7 "nonexistent").2.2.1 (by decide),
    (claim_C7 gC7 "nonexistent").2.2.2 (by decide)⟩

/-- C8: for a key not present in the position dictionary, `get_position`
returns `none` and `get_position_drills` returns the empty list; both are
total functions. -/
theorem claim_C8 (g : BJJGraph) (k : String)
    (h : ∀ e ∈ g.positions, e.1 ≠ k) :
    g.get_position k = none ∧ g.get_position_drills k = [] := by
  have hl : alookup k g.positions = none := alookup_eq_none_of_forall h
  constructor
  · exact hl
  · unfold BJJGraph.get_position_drills BJJGraph.get_position
    rw [hl]

/-- Witness for C8 at a concrete input: the key `"ghost"` is absent from
`gC8`'s position set. -/
theorem claim_C8_witness :
    gC8.get_position "ghost" = none ∧ gC8.get_position_drills "ghost" = [] :=
  claim_C8 gC8 "ghost" (by decide)
